import Mathlib

/-!
Verification of the PACTOPAC catalog merge / fuzzy-filter / pagination /
reconciliation core (src/main.py) against its natural-language specification.

Python floats carrying similarity scores are modelled as exact rationals (ℚ);
the `difflib.SequenceMatcher.ratio` similarity is embedded by its documented
contract (Ratcliff/Obershelp: recursively take the longest matching block —
longest, then earliest in the first string, then earliest in the second — and
sum the matched lengths; ratio = 2*M/(|a|+|b|), and 1 when both are empty).
Package records, which the Python code keeps as 4- or 5-tuples
(name, repo, installed, kind[, app_id]), are modelled as a structure whose
optional `app_id` field stands for the fifth tuple slot.
-/

/-- The closed source tag `p[3]` of a package tuple: "pacman", "flatpak" or "aur". -/
inductive SourceKind where
  | pacman
  | flatpak
  | aur
deriving DecidableEq, BEq, Repr

/-- A package record: the tuple `(name, repo, installed, kind[, app_id])` of
`src/main.py`.  `app_id` models the optional fifth slot (present for flatpak
records, where it holds the reverse-DNS application id). -/
structure Pkg where
  name : String
  repo : String
  installed : Bool
  kind : SourceKind
  app_id : Option String := none
deriving DecidableEq, Repr

/-- Python `needle in hay` on strings: substring containment, as a Boolean on
character lists.  The empty needle is contained in everything. -/
def isSubstr (needle hay : List Char) : Bool :=
  needle.isPrefixOf hay ||
    match hay with
    | [] => false
    | _ :: t => isSubstr needle t

/-- Length of the longest common prefix of two character lists. -/
def commonPrefixLen : List Char → List Char → Nat
  | a :: as, b :: bs => if a = b then commonPrefixLen as bs + 1 else 0
  | _, _ => 0

/-- `difflib.SequenceMatcher.find_longest_match` over the whole strings, by its
documented contract: the triple `(i, j, k)` with `a[i:i+k] == b[j:j+k]`,
maximising `k`, then minimising `i`, then minimising `j`; `(0,0,0)` when there
is no common character.  Implemented as a fold over all start positions with a
strict improvement test, which realises exactly that tie-breaking. -/
def bestBlock (a b : List Char) : Nat × Nat × Nat :=
  (List.range a.length).foldl
    (fun best i =>
      (List.range b.length).foldl
        (fun best j =>
          let k := commonPrefixLen (a.drop i) (b.drop j)
          if best.2.2 < k then (i, j, k) else best)
        best)
    (0, 0, 0)

/-- Validity of a candidate block: it designates a genuine common substring. -/
def ValidBlock (a b : List Char) (t : Nat × Nat × Nat) : Prop :=
  t.1 + t.2.2 ≤ a.length ∧ t.2.1 + t.2.2 ≤ b.length ∧
    (a.drop t.1).take t.2.2 = (b.drop t.2.1).take t.2.2

theorem commonPrefixLen_le_left (a b : List Char) :
    commonPrefixLen a b ≤ a.length := by
  induction a generalizing b with
  | nil => simp [commonPrefixLen]
  | cons x xs ih =>
    cases b with
    | nil => simp [commonPrefixLen]
    | cons y ys =>
      by_cases h : x = y <;> simp [commonPrefixLen, h]
      exact ih ys

theorem commonPrefixLen_le_right (a b : List Char) :
    commonPrefixLen a b ≤ b.length := by
  induction a generalizing b with
  | nil => simp [commonPrefixLen]
  | cons x xs ih =>
    cases b with
    | nil => simp [commonPrefixLen]
    | cons y ys =>
      by_cases h : x = y <;> simp [commonPrefixLen, h]
      exact ih ys

theorem commonPrefixLen_take (a b : List Char) :
    a.take (commonPrefixLen a b) = b.take (commonPrefixLen a b) := by
  induction a generalizing b with
  | nil => simp [commonPrefixLen]
  | cons x xs ih =>
    cases b with
    | nil => simp [commonPrefixLen]
    | cons y ys =>
      by_cases h : x = y <;> simp [commonPrefixLen, h]
      exact ih ys

theorem bestBlock_valid (a b : List Char) : ValidBlock a b (bestBlock a b) := by
  have hstep : ∀ (i : Nat), i < a.length → ∀ (t : Nat × Nat × Nat),
      ValidBlock a b t →
      ValidBlock a b ((List.range b.length).foldl
        (fun best j =>
          let k := commonPrefixLen (a.drop i) (b.drop j)
          if best.2.2 < k then (i, j, k) else best) t) := by
    intro i hi t ht
    have : ∀ (js : List Nat), (∀ j ∈ js, j < b.length) → ∀ (t : Nat × Nat × Nat),
        ValidBlock a b t →
        ValidBlock a b (js.foldl
          (fun best j =>
            let k := commonPrefixLen (a.drop i) (b.drop j)
            if best.2.2 < k then (i, j, k) else best) t) := by
      intro js
      induction js with
      | nil => intro _ t ht; exact ht
      | cons j js ih =>
        intro hjs t ht
        simp only [List.foldl_cons]
        apply ih (fun x hx => hjs x (List.mem_cons_of_mem _ hx))
        by_cases hc : t.2.2 < commonPrefixLen (a.drop i) (b.drop j)
        · simp only [hc, if_pos]
          refine ⟨?_, ?_, ?_⟩ <;> dsimp only [ValidBlock]
          · have := commonPrefixLen_le_left (a.drop i) (b.drop j)
            simp only [List.length_drop] at this
            omega
          · have := commonPrefixLen_le_right (a.drop i) (b.drop j)
            simp only [List.length_drop] at this
            have hj : j < b.length := hjs j (List.mem_cons_self j js)
            omega
          · exact commonPrefixLen_take (a.drop i) (b.drop j)
        · simp only [hc, if_neg, not_false_eq_true]
          exact ht
    exact this (List.range b.length) (fun j hj => List.mem_range.mp hj) t ht
  have : ∀ (is_ : List Nat), (∀ i ∈ is_, i < a.length) → ∀ (t : Nat × Nat × Nat),
      ValidBlock a b t →
      ValidBlock a b (is_.foldl
        (fun best i =>
          (List.range b.length).foldl
            (fun best j =>
              let k := commonPrefixLen (a.drop i) (b.drop j)
              if best.2.2 < k then (i, j, k) else best) best) t) := by
    intro is_
    induction is_ with
    | nil => intro _ t ht; exact ht
    | cons i is_ ih =>
      intro his t ht
      simp only [List.foldl_cons]
      apply ih (fun x hx => his x (List.mem_cons_of_mem _ hx))
      exact hstep i (his i (List.mem_cons_self i is_)) t ht
  exact this (List.range a.length) (fun i hi => List.mem_range.mp hi) (0, 0, 0)
    ⟨by simp, by simp, by simp⟩

/-- Total number of matched characters reported by
`SequenceMatcher.get_matching_blocks`: take the best block, then recurse on the
parts strictly before and strictly after it (merging adjacent blocks in the
Python code changes only the block list, not this total).  A fuel argument
(any bound of at least `a.length` suffices, since each recursive call strictly
shrinks the first list) keeps the recursion structural so that concrete
instances evaluate by `decide`. -/
def matchTotalF : Nat → List Char → List Char → Nat
  | 0, _, _ => 0
  | fuel + 1, a, b =>
    if (bestBlock a b).2.2 = 0 then 0
    else
      (bestBlock a b).2.2 +
        matchTotalF fuel (a.take (bestBlock a b).1) (b.take (bestBlock a b).2.1) +
        matchTotalF fuel (a.drop ((bestBlock a b).1 + (bestBlock a b).2.2))
          (b.drop ((bestBlock a b).2.1 + (bestBlock a b).2.2))

/-- The matched-character total with just enough fuel. -/
def matchTotal (a b : List Char) : Nat :=
  matchTotalF a.length a b

/-- `SequenceMatcher.ratio` on two character lists, as an exact rational:
`2*M/(|a|+|b|)`, and `1` when both strings are empty.  Stated with `mkRat` so
that concrete instances reduce inside the kernel. -/
def ratioQ (a b : List Char) : ℚ :=
  if a.length + b.length = 0 then 1
  else mkRat (2 * matchTotal a b) (a.length + b.length)

theorem ratioQ_eq_div (a b : List Char) (h : a.length + b.length ≠ 0) :
    ratioQ a b = 2 * (matchTotal a b : ℚ) / ((a.length + b.length : Nat) : ℚ) := by
  rw [ratioQ, if_neg h, Rat.mkRat_eq_divInt, Rat.divInt_eq_div]
  push_cast
  ring

theorem matchTotalF_le (fuel : Nat) (a b : List Char) (hf : a.length ≤ fuel) :
    matchTotalF fuel a b ≤ min a.length b.length := by
  induction fuel generalizing a b with
  | zero => simp [matchTotalF]
  | succ f ih =>
    rw [matchTotalF]
    split
    · simp
    · rename_i hk
      obtain ⟨h1, h2, h3⟩ := bestBlock_valid a b
      have ih1 := ih (a.take (bestBlock a b).1) (b.take (bestBlock a b).2.1)
        (by simp only [List.length_take]; omega)
      have ih2 := ih (a.drop ((bestBlock a b).1 + (bestBlock a b).2.2))
        (b.drop ((bestBlock a b).2.1 + (bestBlock a b).2.2))
        (by simp only [List.length_drop]; omega)
      simp only [List.length_take, List.length_drop] at ih1 ih2
      omega

theorem matchTotal_le (a b : List Char) :
    matchTotal a b ≤ min a.length b.length :=
  matchTotalF_le a.length a b (le_refl _)

theorem matchTotalF_eq_length_imp_eq (fuel : Nat) (a b : List Char)
    (hf : a.length ≤ fuel) (hlen : a.length = b.length)
    (h : matchTotalF fuel a b = a.length) : a = b := by
  induction fuel generalizing a b with
  | zero =>
    simp only [matchTotalF] at h
    have ha : a = [] := List.length_eq_zero.mp h.symm
    have hb : b = [] := List.length_eq_zero.mp (by omega)
    rw [ha, hb]
  | succ f ih =>
    rw [matchTotalF] at h
    split at h
    · have ha : a = [] := List.length_eq_zero.mp h.symm
      have hb : b = [] := List.length_eq_zero.mp (by omega)
      rw [ha, hb]
    · rename_i hk
      obtain ⟨h1, h2, h3⟩ := bestBlock_valid a b
      have le1 := matchTotalF_le f (a.take (bestBlock a b).1) (b.take (bestBlock a b).2.1)
        (by simp only [List.length_take]; omega)
      have le2 := matchTotalF_le f (a.drop ((bestBlock a b).1 + (bestBlock a b).2.2))
        (b.drop ((bestBlock a b).2.1 + (bestBlock a b).2.2))
        (by simp only [List.length_drop]; omega)
      simp only [List.length_take, List.length_drop] at le1 le2
      have hij : (bestBlock a b).1 = (bestBlock a b).2.1 := by omega
      have hm1 : matchTotalF f (a.take (bestBlock a b).1) (b.take (bestBlock a b).2.1)
          = (bestBlock a b).1 := by omega
      have hm2 : matchTotalF f (a.drop ((bestBlock a b).1 + (bestBlock a b).2.2))
          (b.drop ((bestBlock a b).2.1 + (bestBlock a b).2.2))
          = a.length - ((bestBlock a b).1 + (bestBlock a b).2.2) := by omega
      have e1 : a.take (bestBlock a b).1 = b.take (bestBlock a b).2.1 := by
        apply ih
        · simp only [List.length_take]; omega
        · simp only [List.length_take]; omega
        · rw [hm1]; simp only [List.length_take]; omega
      have e2 : a.drop ((bestBlock a b).1 + (bestBlock a b).2.2)
          = b.drop ((bestBlock a b).2.1 + (bestBlock a b).2.2) := by
        apply ih
        · simp only [List.length_drop]; omega
        · simp only [List.length_drop]; omega
        · rw [hm2]; simp only [List.length_drop]
      calc a = a.take (bestBlock a b).1 ++ a.drop (bestBlock a b).1 :=
              (List.take_append_drop _ _).symm
        _ = a.take (bestBlock a b).1 ++
              ((a.drop (bestBlock a b).1).take (bestBlock a b).2.2 ++
               (a.drop (bestBlock a b).1).drop (bestBlock a b).2.2) := by
              rw [List.take_append_drop (bestBlock a b).2.2 (a.drop (bestBlock a b).1)]
        _ = b.take (bestBlock a b).2.1 ++
              ((b.drop (bestBlock a b).2.1).take (bestBlock a b).2.2 ++
               (b.drop (bestBlock a b).2.1).drop (bestBlock a b).2.2) := by
              rw [e1, h3]
              congr 2
              rw [List.drop_drop, List.drop_drop, Nat.add_comm, hij,
                ← e2, hij, Nat.add_comm]
        _ = b.take (bestBlock a b).2.1 ++ b.drop (bestBlock a b).2.1 := by
              rw [List.take_append_drop (bestBlock a b).2.2 (b.drop (bestBlock a b).2.1)]
        _ = b := List.take_append_drop _ _

theorem matchTotal_eq_length_imp_eq (a b : List Char)
    (hlen : a.length = b.length) (h : matchTotal a b = a.length) : a = b :=
  matchTotalF_eq_length_imp_eq a.length a b (le_refl _) hlen h

theorem ratioQ_le_one (a b : List Char) : ratioQ a b ≤ 1 := by
  by_cases htot : a.length + b.length = 0
  case pos => rw [ratioQ, if_pos htot]
  case neg =>
    rw [ratioQ_eq_div a b htot]
    have hpos : (0 : ℚ) < ((a.length + b.length : Nat) : ℚ) := by
      exact_mod_cast Nat.pos_of_ne_zero htot
    rw [div_le_one hpos]
    have hm := matchTotal_le a b
    have h2 : 2 * matchTotal a b ≤ a.length + b.length := by omega
    calc (2 : ℚ) * (matchTotal a b : ℚ) = ((2 * matchTotal a b : Nat) : ℚ) := by
          push_cast; ring
      _ ≤ ((a.length + b.length : Nat) : ℚ) := by exact_mod_cast h2

theorem ratioQ_lt_one_of_ne (a b : List Char) (h : a ≠ b) : ratioQ a b < 1 := by
  by_cases htot : a.length + b.length = 0
  case pos =>
    exfalso
    have ha : a = [] := List.length_eq_zero.mp (by omega)
    have hb : b = [] := List.length_eq_zero.mp (by omega)
    exact h (ha.trans hb.symm)
  case neg =>
    rw [ratioQ_eq_div a b htot]
    have hpos : (0 : ℚ) < ((a.length + b.length : Nat) : ℚ) := by
      exact_mod_cast Nat.pos_of_ne_zero htot
    rw [div_lt_one hpos]
    have hm := matchTotal_le a b
    have hne : 2 * matchTotal a b ≠ a.length + b.length := by
      intro heq
      have hl : a.length = b.length := by omega
      have hme : matchTotal a b = a.length := by omega
      exact h (matchTotal_eq_length_imp_eq a b hl hme)
    have h2 : 2 * matchTotal a b < a.length + b.length := by omega
    calc (2 : ℚ) * (matchTotal a b : ℚ) = ((2 * matchTotal a b : Nat) : ℚ) := by
          push_cast; ring
      _ < ((a.length + b.length : Nat) : ℚ) := by exact_mod_cast h2

/-- Python `str.lower()` on our character-list model (per-character lowering). -/
def lowerData (s : String) : List Char :=
  s.data.map Char.toLower

/-- `fuzzy_match` from `src/main.py` (lines 1622–1638): empty search matches
with score 1; a case-insensitive substring hit matches with score 1; otherwise
the score is the `SequenceMatcher` ratio of the lowercased strings and the
record matches exactly when the score reaches the configured threshold. -/
def fuzzy_match (threshold : ℚ) (search_text package_name : String) : Bool × ℚ :=
  if search_text = "" then (true, 1)
  else
    let search_lower := lowerData search_text
    let name_lower := lowerData package_name
    if isSubstr search_lower name_lower then (true, 1)
    else
      (decide (threshold ≤ ratioQ search_lower name_lower),
        ratioQ search_lower name_lower)

example : fuzzy_match (mkRat 2 5) "abc" "abd" = (true, mkRat 2 3) := by decide
example : fuzzy_match (mkRat 2 5) "Fire" "firefox-esr" = (true, 1) := by decide

/-- The five tab names of `self.current_tab` in `src/main.py`. -/
inductive Tab where
  | installed
  | available
  | flatpak
  | aur
  | all
deriving DecidableEq, Repr

/-- The per-tab candidate test of `refresh_list` (src/main.py lines
1668–1701): which records each branch of the tab dispatch examines.  The
`len(p) > 3` guards of the Python code are always true in this model, since
every record carries its source tag. -/
def tabPred (tab : Tab) (p : Pkg) : Bool :=
  match tab with
  | .installed => p.installed && p.kind == .pacman
  | .available => !p.installed
  | .flatpak => p.installed && p.kind == .flatpak
  | .aur => p.kind == .aur
  | .all => true

/-- The `matches_with_scores` accumulation loop of `refresh_list`: walk the
catalog in order, keep the records passing the tab test whose fuzzy match
succeeds, paired with their scores. -/
def matchesWithScores (thr : ℚ) (tab : Tab) (search_text : String)
    (packages : List Pkg) : List (Pkg × ℚ) :=
  packages.filterMap (fun p =>
    if tabPred tab p then
      if (fuzzy_match thr search_text p.name).1 then
        some (p, (fuzzy_match thr search_text p.name).2)
      else none
    else none)

/-- Insert a scored record into a descending-sorted list, after every element
whose score is at least as large — the insertion step of a stable descending
sort, modelling Python `list.sort(key=score, reverse=True)`. -/
def insertDesc (x : Pkg × ℚ) : List (Pkg × ℚ) → List (Pkg × ℚ)
  | [] => [x]
  | y :: ys => if x.2 ≤ y.2 then y :: insertDesc x ys else x :: y :: ys

/-- Stable sort by score, highest first: Python's
`matches_with_scores.sort(key=lambda x: x[1], reverse=True)`. -/
def sortDesc (l : List (Pkg × ℚ)) : List (Pkg × ℚ) :=
  l.foldl (fun acc x => insertDesc x acc) []

/-- The ranked matches `refresh_list` computes before pagination. -/
def rankedMatches (thr : ℚ) (tab : Tab) (search_text : String)
    (packages : List Pkg) : List (Pkg × ℚ) :=
  sortDesc (matchesWithScores thr tab search_text packages)

/-- `self.filtered_packages` after a `refresh_list` pass: the ranked records,
scores dropped. -/
def filteredPackages (thr : ℚ) (tab : Tab) (search_text : String)
    (packages : List Pkg) : List Pkg :=
  (rankedMatches thr tab search_text packages).map Prod.fst

/-- Python list slicing `l[start:stop]` for non-negative bounds (clamping at
the list length, empty when `stop ≤ start`). -/
def pySlice (l : List Pkg) (start stop : Nat) : List Pkg :=
  (l.drop start).take (stop - start)

/-- The page slice rendered by `refresh_list` (src/main.py lines 1707–1724):
`filtered[start:end]` for pages after the first, `filtered[0:end]` for page 0,
with `end = min((page+1)*page_size, total)`. -/
def pageSlice (filtered : List Pkg) (page page_size : Nat) : List Pkg :=
  if 0 < page then
    pySlice filtered (page * page_size)
      (min ((page + 1) * page_size) filtered.length)
  else pySlice filtered 0 (min ((page + 1) * page_size) filtered.length)

/-- `has_more` as `refresh_list` computes it: `end_idx < total_filtered`. -/
def hasMore (filtered : List Pkg) (page page_size : Nat) : Bool :=
  min ((page + 1) * page_size) filtered.length < filtered.length

/-- The rows on screen after rendering page 0 and then pressing "load
more" (`load_more_packages` increments the page and appends the new slice)
up to page `k`. -/
def renderedThrough (filtered : List Pkg) (page_size : Nat) : Nat → List Pkg
  | 0 => pageSlice filtered 0 page_size
  | k + 1 => renderedThrough filtered page_size k ++ pageSlice filtered (k + 1) page_size

example :
    filteredPackages (mkRat 2 5) Tab.all "firefox"
      [⟨"firefox", "extra", true, .pacman, none⟩,
       ⟨"firefox-esr", "aur", false, .aur, none⟩]
    = [⟨"firefox", "extra", true, .pacman, none⟩,
       ⟨"firefox-esr", "aur", false, .aur, none⟩] := by decide

example :
    filteredPackages (mkRat 2 5) Tab.installed "firefox"
      [⟨"firefox", "extra", true, .pacman, none⟩,
       ⟨"firefox-esr", "aur", false, .aur, none⟩]
    = [⟨"firefox", "extra", true, .pacman, none⟩] := by decide

theorem insertDesc_perm (x : Pkg × ℚ) (l : List (Pkg × ℚ)) :
    (insertDesc x l).Perm (x :: l) := by
  induction l with
  | nil => exact List.Perm.refl _
  | cons y ys ih =>
    rw [insertDesc]
    split
    · exact (List.Perm.cons y ih).trans (List.Perm.swap x y ys)
    · exact List.Perm.refl _

theorem sortDesc_foldl_perm (l acc : List (Pkg × ℚ)) :
    (l.foldl (fun acc x => insertDesc x acc) acc).Perm (l ++ acc) := by
  induction l generalizing acc with
  | nil => exact List.Perm.refl _
  | cons x xs ih =>
    simp only [List.foldl_cons, List.cons_append]
    exact ((ih (insertDesc x acc)).trans
      (List.Perm.append_left xs (insertDesc_perm x acc))).trans
      List.perm_middle

theorem sortDesc_perm (l : List (Pkg × ℚ)) : (sortDesc l).Perm l := by
  have := sortDesc_foldl_perm l []
  simpa [sortDesc] using this

/-- Scores are non-increasing along the list. -/
def ScoreSorted (l : List (Pkg × ℚ)) : Prop :=
  l.Pairwise (fun x y => y.2 ≤ x.2)

theorem scoreSorted_head_ge (y : Pkg × ℚ) (ys : List (Pkg × ℚ))
    (h : ScoreSorted (y :: ys)) : ∀ z ∈ y :: ys, z.2 ≤ y.2 := by
  intro z hz
  rcases List.mem_cons.mp hz with hz | hz
  · rw [hz]
  · exact (List.pairwise_cons.mp h).1 z hz

theorem insertDesc_sorted (x : Pkg × ℚ) (l : List (Pkg × ℚ))
    (h : ScoreSorted l) : ScoreSorted (insertDesc x l) := by
  induction l with
  | nil => simp [insertDesc, ScoreSorted]
  | cons y ys ih =>
    rw [insertDesc]
    obtain ⟨hy, hys⟩ := List.pairwise_cons.mp h
    split
    · rename_i hle
      rw [ScoreSorted, List.pairwise_cons]
      constructor
      · intro z hz
        have hz' : z ∈ x :: ys := (insertDesc_perm x ys).mem_iff.mp hz
        rcases List.mem_cons.mp hz' with hz' | hz'
        · rw [hz']; exact hle
        · exact hy z hz'
      · exact ih hys
    · rename_i hgt
      push_neg at hgt
      rw [ScoreSorted, List.pairwise_cons]
      constructor
      · intro z hz
        exact le_of_lt (lt_of_le_of_lt (scoreSorted_head_ge y ys h z hz) hgt)
      · exact h

theorem sortDesc_foldl_sorted (l acc : List (Pkg × ℚ)) (h : ScoreSorted acc) :
    ScoreSorted (l.foldl (fun acc x => insertDesc x acc) acc) := by
  induction l generalizing acc with
  | nil => exact h
  | cons x xs ih =>
    simp only [List.foldl_cons]
    exact ih (insertDesc x acc) (insertDesc_sorted x acc h)

theorem sortDesc_sorted (l : List (Pkg × ℚ)) : ScoreSorted (sortDesc l) :=
  sortDesc_foldl_sorted l [] (by simp [ScoreSorted])

theorem insertDesc_filter (s : ℚ) (x : Pkg × ℚ) (l : List (Pkg × ℚ))
    (h : ScoreSorted l) :
    (insertDesc x l).filter (fun y => decide (y.2 = s)) =
      if x.2 = s then l.filter (fun y => decide (y.2 = s)) ++ [x]
      else l.filter (fun y => decide (y.2 = s)) := by
  induction l with
  | nil =>
    simp only [insertDesc, List.filter]
    by_cases hx : x.2 = s <;> simp [hx]
  | cons y ys ih =>
    obtain ⟨hy, hys⟩ := List.pairwise_cons.mp h
    rw [insertDesc]
    split
    · rename_i hle
      by_cases hx : x.2 = s <;> by_cases hyy : y.2 = s <;>
        simp [List.filter, hx, hyy, ih hys]
    · rename_i hgt
      push_neg at hgt
      by_cases hx : x.2 = s
      · have hnone : (y :: ys).filter (fun z => decide (z.2 = s)) = [] := by
          rw [List.filter_eq_nil]
          intro z hz
          have hle := scoreSorted_head_ge y ys h z hz
          simp only [decide_eq_true_eq]
          intro hzs
          rw [hzs, ← hx] at hle
          exact absurd hle (not_le_of_lt hgt)
        rw [if_pos hx]
        calc (x :: y :: ys).filter (fun z => decide (z.2 = s))
            = x :: ((y :: ys).filter (fun z => decide (z.2 = s))) := by
              rw [List.filter_cons]
              simp [hx]
          _ = (y :: ys).filter (fun z => decide (z.2 = s)) ++ [x] := by
              rw [hnone]
              rfl
      · rw [if_neg hx]
        rw [List.filter_cons]
        simp [hx]

theorem sortDesc_foldl_filter (s : ℚ) (l acc : List (Pkg × ℚ))
    (h : ScoreSorted acc) :
    (l.foldl (fun acc x => insertDesc x acc) acc).filter
        (fun y => decide (y.2 = s)) =
      acc.filter (fun y => decide (y.2 = s)) ++
        l.filter (fun y => decide (y.2 = s)) := by
  induction l generalizing acc with
  | nil => simp
  | cons x xs ih =>
    simp only [List.foldl_cons]
    rw [ih (insertDesc x acc) (insertDesc_sorted x acc h),
      insertDesc_filter s x acc h, List.filter_cons]
    by_cases hx : x.2 = s
    · simp [hx]
    · simp [hx]

/-- Stability of the descending sort: records carrying any fixed score appear
in the output in exactly their input (catalog) order. -/
theorem sortDesc_stable (s : ℚ) (l : List (Pkg × ℚ)) :
    (sortDesc l).filter (fun y => decide (y.2 = s)) =
      l.filter (fun y => decide (y.2 = s)) := by
  have := sortDesc_foldl_filter s l [] (by simp [ScoreSorted])
  simpa [sortDesc] using this

/-- Python `str.strip()` on a character list: drop whitespace at both ends. -/
def pyStrip (l : List Char) : List Char :=
  ((l.dropWhile Char.isWhitespace).reverse.dropWhile Char.isWhitespace).reverse

/-- Python `s.split(pred)`: fields between separator characters, empty fields
kept (`"".split(c) == [""]`). -/
def pySplitPred (p : Char → Bool) : List Char → List (List Char)
  | [] => [[]]
  | c :: t =>
    if p c then [] :: pySplitPred p t
    else
      match pySplitPred p t with
      | [] => [[c]]
      | h :: r => (c :: h) :: r

/-- Python `s.split(sep)` for a one-character separator. -/
def pySplitChar (sep : Char) (l : List Char) : List (List Char) :=
  pySplitPred (fun c => c = sep) l

/-- Python `s.split()` with no argument: split on whitespace runs, no empty
fields. -/
def pySplitWs (l : List Char) : List (List Char) :=
  (pySplitPred Char.isWhitespace l).filter (fun f => f ≠ [])

/-- Python `s.split(sep, maxsplit)` for a one-character separator. -/
def pySplitCharMax (sep : Char) : Nat → List Char → List (List Char)
  | _, [] => [[]]
  | 0, l => [l]
  | m + 1, c :: t =>
    if c = sep then [] :: pySplitCharMax sep m t
    else
      match pySplitCharMax sep (m + 1) t with
      | [] => [[c]]
      | h :: r => (c :: h) :: r

/-- `stdout.strip().split('\n')`, the line decomposition several parsers use. -/
def strippedLines (stdout : String) : List (List Char) :=
  pySplitChar (Char.ofNat 10) (pyStrip stdout.data)

/-- `{line.split()[0] for line in lines if line}`: the first whitespace token
of every nonempty line; `none` models the `IndexError` raised when a nonempty
line consists of whitespace only (`line.split()` is empty). -/
def firstTokens (lines : List (List Char)) : Option (List String) :=
  lines.foldr (fun line acc =>
    match acc with
    | none => none
    | some names =>
      if line = [] then some names
      else
        match pySplitWs line with
        | [] => none
        | t :: _ => some (String.mk t :: names)) (some [])

/-- One `subprocess.run` call's outcome: `none` when the call itself raises
(binary missing, timeout), otherwise `(returncode, stdout)`. -/
abbrev ProcResult := Option (Int × String)

/-- Character class of the AUR name validation regex `[a-zA-Z0-9._+-]`. -/
def isAurNameChar (c : Char) : Bool :=
  c.isAlpha || c.isDigit || c = '.' || c = '_' || c = '+' || c = '-'

/-- `re.match(r'^[a-zA-Z0-9._+-]+$', s)`: nonempty, all characters in class. -/
def validAurName (l : List Char) : Bool :=
  l ≠ [] && l.all isAurNameChar

/-- `re.match(r'^[a-zA-Z0-9._+-]{2,}$', s)`: at least two characters in class. -/
def validAurSearchName (l : List Char) : Bool :=
  2 ≤ l.length && l.all isAurNameChar

/-- The `grimaur list` output parser shared verbatim by `load_packages` and
`refresh_installed_aur`: strip each line, skip blanks, skip header lines
(lowercased line starts with "installed", or the line ends with a colon),
take the first whitespace token and keep it when the name regex accepts it. -/
def parseAurList (stdout : String) : List String :=
  (strippedLines stdout).foldr (fun line acc =>
    let line := pyStrip line
    if line = [] then acc
    else if "installed".data.isPrefixOf (line.map Char.toLower) then acc
    else if line.getLast? = some ':' then acc
    else
      match pySplitWs line with
      | [] => acc
      | t :: _ => if validAurName t then String.mk t :: acc else acc) []

/-- `pacman -Sl` parser of `load_packages`: for every nonempty line,
`parts = line.split(' ', 2)`; when it has at least two fields the record is
`(parts[1], parts[0], parts[1] in installed, "pacman")`. -/
def parsePacmanSl (stdout : String) (installed : List String) : List Pkg :=
  (pySplitChar (Char.ofNat 10) stdout.data).foldr (fun line acc =>
    if line = [] then acc
    else
      match pySplitCharMax ' ' 2 line with
      | repo :: nm :: _ =>
        ⟨String.mk nm, String.mk repo, installed.contains (String.mk nm),
          .pacman, none⟩ :: acc
      | _ => acc) []

/-- `flatpak list --app` parser of `load_packages`: second tab field of every
line with nonblank content and at least two tab fields. -/
def parseFlatpakInstalledIds (stdout : String) : List String :=
  (pySplitChar (Char.ofNat 10) stdout.data).foldr (fun line acc =>
    if pyStrip line ≠ [] then
      match pySplitChar (Char.ofNat 9) line with
      | _ :: fid :: _ => String.mk fid :: acc
      | _ => acc
    else acc) []

/-- `flatpak remote-ls --app flathub` parser of `load_packages`: for every
line with nonblank content and at least three tab fields, the record is
`(parts[0], "flathub", parts[1] in installed_ids, "flatpak", parts[1])`. -/
def parseFlatpakRemote (stdout : String) (installed_ids : List String) : List Pkg :=
  (pySplitChar (Char.ofNat 10) stdout.data).foldr (fun line acc =>
    if pyStrip line ≠ [] then
      match pySplitChar (Char.ofNat 9) line with
      | nm :: fid :: _ :: _ =>
        ⟨String.mk nm, "flathub", installed_ids.contains (String.mk fid),
          .flatpak, some (String.mk fid)⟩ :: acc
      | _ => acc
    else acc) []

/-- `flatpak list --app --columns=application` parser of
`update_package_status`: every stripped nonempty line not starting with
"Application". -/
def parseFlatpakColumns (stdout : String) : List String :=
  (strippedLines stdout).foldr (fun line acc =>
    if line ≠ [] && !("Application".data.isPrefixOf line) then
      String.mk (pyStrip line) :: acc
    else acc) []

/-- The flatpak block of `load_packages`: it runs only when both
`check_fp()` and `check_fh()` hold; its `try` catches only
`CalledProcessError` (a non-zero exit under `check=True`), so a raising call
(`none`) escapes to the outer handler — modelled as `.error`. -/
def loadFlatpakPart : Bool → ProcResult → ProcResult → Except Unit (List Pkg)
  | false, _, _ => .ok []
  | true, none, _ => .error ()
  | true, some (rc1, remoteOut), listed =>
    if rc1 ≠ 0 then .ok []
    else
      match listed with
      | none => .error ()
      | some (rc2, listOut) =>
        if rc2 ≠ 0 then .ok []
        else .ok (parseFlatpakRemote remoteOut (parseFlatpakInstalledIds listOut))

/-- The AUR block of `load_packages`: guarded by `check_grimaur()` and the
user setting; its `try` catches every exception, resetting the installed-AUR
set to empty; a non-zero exit keeps the freshly initialised empty set; on
success each accepted name is appended as an installed AUR record and also
recorded in the installed-AUR set.  When the guard is off, the previous
installed-AUR set is left untouched. -/
def loadAurPart : Bool → ProcResult → List String → List Pkg × List String
  | false, _, prevAur => ([], prevAur)
  | true, none, _ => ([], [])
  | true, some (rcA, aurOut), _ =>
    if rcA = 0 then
      let names := parseAurList aurOut
      (names.map (fun n => ⟨n, "aur", true, .aur, none⟩), names)
    else ([], [])

/-- `load_packages` (src/main.py lines 1356–1430), as a function of each
external call's outcome.  Everything runs inside one outer `try`; `.error`
models reaching its handler (`status.set_text("Error: …")`, no catalog
produced).  `pacman -Sl` runs with `check=True`, so a raise or non-zero exit
is fatal; `pacman -Q` runs unchecked, so only a raise (or an `IndexError`
while tokenising its output) is fatal.  The result on success is the package
list (pacman records, then flatpak, then AUR) and the installed-AUR set. -/
def load_packages (pacmanSl pacmanQ : ProcResult) (fp_ok : Bool)
    (flatpakRemote flatpakList : ProcResult) (aur_ok : Bool)
    (aurList : ProcResult) (prevAur : List String) :
    Except Unit (List Pkg × List String) :=
  match pacmanSl with
  | none => .error ()
  | some (rcSl, slOut) =>
    if rcSl ≠ 0 then .error ()
    else
      match pacmanQ with
      | none => .error ()
      | some (_, qOut) =>
        match firstTokens (pySplitChar (Char.ofNat 10) qOut.data) with
        | none => .error ()
        | some installed =>
          match loadFlatpakPart fp_ok flatpakRemote flatpakList with
          | .error _ => .error ()
          | .ok flatpakPkgs =>
            let aurRes := loadAurPart aur_ok aurList prevAur
            .ok (parsePacmanSl slOut installed ++ flatpakPkgs ++ aurRes.1,
              aurRes.2)

/-- `merge_aur_search_results` (src/main.py lines 1571–1586): drop every
not-installed AUR record, collect the names of what is left, then append each
hit whose name is not among those names. -/
def merge_aur_search_results (packages aur_results : List Pkg) : List Pkg :=
  let kept := packages.filter (fun p => !(p.kind == .aur && !p.installed))
  let existing_names := kept.map Pkg.name
  kept ++ aur_results.filter (fun h => !existing_names.contains h.name)

/-- The per-record installed-status recomputation of `update_package_status`
(src/main.py lines 1321–1342): AUR and pacman records are matched on their
name; flatpak records on their application id (the fifth tuple slot), with a
missing or empty id — both falsy in Python — giving `False`. -/
def updatedInstalled (installed_pacman installed_flatpak installed_aur : List String)
    (p : Pkg) : Bool :=
  match p.kind with
  | .aur => installed_aur.contains p.name
  | .flatpak =>
    match p.app_id with
    | some fid => if fid = "" then false else installed_flatpak.contains fid
    | none => false
  | .pacman => installed_pacman.contains p.name

/-- The rebuilt record: same tuple with only the installed flag replaced. -/
def updateRecord (installed_pacman installed_flatpak installed_aur : List String)
    (p : Pkg) : Pkg :=
  { p with installed := updatedInstalled installed_pacman installed_flatpak installed_aur p }

/-- What a reconciliation pass does: either an in-place patch of the catalog
(with the refreshed installed-AUR set), or a fall back to a full reload. -/
inductive ReconcileOutcome where
  | patched (packages : List Pkg) (installed_aur : List String)
  | fullReload
deriving DecidableEq, Repr

/-- The installed-flatpak set the reconciler derives: the inner
`try … except Exception: pass` leaves the freshly initialised empty set on a
raise or (via `check=True`) a non-zero exit. -/
def flatpakInstalledSet (r : ProcResult) : List String :=
  match r with
  | none => []
  | some (rcF, fOut) => if rcF = 0 then parseFlatpakColumns fOut else []

/-- The installed-AUR set after `refresh_installed_aur`: a raise is swallowed
and keeps the previous set, a non-zero exit keeps the freshly initialised
empty set, and a zero exit parses the listing. -/
def aurInstalledSet (r : ProcResult) (prevAur : List String) : List String :=
  match r with
  | none => prevAur
  | some (rcA, aOut) => if rcA = 0 then parseAurList aOut else []

/-- `update_package_status` (src/main.py lines 1302–1352) as a function of
the three "what is installed" re-queries.  `pacman -Q` runs with
`check=True` inside the outer `try`, whose handler falls back to
`load_packages` — so a raise, a non-zero exit, or an `IndexError` while
tokenising gives `.fullReload`.  The flatpak query sits in an inner
`try … except: pass`, so any failure leaves the freshly initialised empty
set.  The AUR query (`refresh_installed_aur`) swallows its own exceptions:
a raise keeps the previous installed-AUR set, a non-zero exit keeps the
freshly initialised empty set. -/
def update_package_status (packages : List Pkg) (prevAur : List String)
    (pacmanQ flatpakList aurList : ProcResult) : ReconcileOutcome :=
  match pacmanQ with
  | none => .fullReload
  | some (rcQ, qOut) =>
    if rcQ ≠ 0 then .fullReload
    else
      match firstTokens (strippedLines qOut) with
      | none => .fullReload
      | some installed_pacman =>
        .patched
          (packages.map (updateRecord installed_pacman
            (flatpakInstalledSet flatpakList) (aurInstalledSet aurList prevAur)))
          (aurInstalledSet aurList prevAur)

/-- The AUR search cache: Python dict keyed on the exact search term. -/
abbrev AurCache := List (String × List Pkg)

/-- Python `cache[term] = value`: replace any entry for the key, add it
otherwise. -/
def storeCache (cache : AurCache) (term : String) (value : List Pkg) : AurCache :=
  (term, value) :: cache.filter (fun e => !(e.1 == term))

/-- The cache discipline of `on_search_changed` (src/main.py lines
1565–1567): when the stripped search text is empty the whole AUR search
cache is cleared; otherwise it is left alone (the asynchronous search updates
it later). -/
def on_search_changed_cache (cache : AurCache) (raw_text : String) : AurCache :=
  if String.mk (pyStrip raw_text.data) = "" then [] else cache

/-- One line of `grimaur … search` output: `re.match(r'^(\d+)\)\s+(\S+)', line)`
applied to the stripped line, returning the second group. -/
def parseNumberedName (l : List Char) : Option (List Char) :=
  let ds := l.takeWhile Char.isDigit
  if ds = [] then none
  else
    match l.drop ds.length with
    | ')' :: rest =>
      let ws := rest.takeWhile Char.isWhitespace
      if ws = [] then none
      else
        let tok := (rest.drop ws.length).takeWhile (fun c => !c.isWhitespace)
        if tok = [] then none else some tok
    | _ => none

/-- The `grimaur search` stdout parser of `search_aur_packages`: skip
description lines (two leading spaces or a tab), strip, skip blanks and
"search results" headers, match the `NUMBER) name` pattern and keep names the
search regex accepts, marking each installed by membership in the
installed-AUR set. -/
def parseAurSearch (stdout : String) (installed_aur : List String) : List Pkg :=
  (pySplitChar (Char.ofNat 10) stdout.data).foldr (fun line acc =>
    if line = [] then acc
    else if (match line with
             | ' ' :: ' ' :: _ => true
             | c :: _ => c = Char.ofNat 9
             | [] => false) then acc
    else
      let line := pyStrip line
      if line = [] then acc
      else if isSubstr "search results".data (line.map Char.toLower) then acc
      else
        match parseNumberedName line with
        | none => acc
        | some nm =>
          if validAurSearchName nm then
            ⟨String.mk nm, "aur", installed_aur.contains (String.mk nm),
              .aur, none⟩ :: acc
          else acc) []

/-- `search_aur_packages` (src/main.py lines 1465–1539) as a function of the
external command's outcome.  Result: the returned package list, the cache
afterwards, and whether the external search command was invoked.  On a cache
hit the cached entries are rebuilt with a fresh installed flag and re-stored
without running the command.  On a miss the command runs; a raise returns an
empty list and caches nothing, otherwise the parsed results (reversed, as
the code does to match grimaur's ordering — empty unless the exit status is
zero and stdout has nonblank content) are cached under the term. -/
def search_aur_packages (enabled : Bool) (cache : AurCache)
    (installed_aur : List String) (term : String) (cmdResult : ProcResult) :
    List Pkg × AurCache × Bool :=
  if !enabled then ([], cache, false)
  else
    match cache.lookup term with
    | some cached =>
      let updated := cached.map (fun p =>
        { p with installed := installed_aur.contains p.name })
      (updated, storeCache cache term updated, false)
    | none =>
      match cmdResult with
      | none => ([], cache, true)
      | some (rc, out) =>
        let pkgs :=
          if rc = 0 && pyStrip out.data ≠ [] then
            (parseAurSearch out installed_aur).reverse
          else []
        (pkgs, storeCache cache term pkgs, true)

/-- Reference definition of the match predicate and score, following the
spec's words (§4.2 step 2 and the threshold-boundary property): empty search
matches with score 1; a lowercased-substring hit matches with score 1;
otherwise the score is the normalized edit-similarity ratio of the two
lowercased strings and the record matches if and only if the score reaches
the threshold (inclusively). -/
def fuzzyMatchSpec (threshold : ℚ) (s n : String) : Bool × ℚ :=
  if s = "" then (true, 1)
  else if isSubstr (lowerData s) (lowerData n) then (true, 1)
  else (decide (threshold ≤ ratioQ (lowerData s) (lowerData n)),
    ratioQ (lowerData s) (lowerData n))

/-- C1: for every search text and package name, `fuzzy_match` agrees with the
spec's reference definition, and (for thresholds in the documented 0–1 range)
the match predicate is exactly the inclusive comparison score ≥ threshold:
a score equal to the threshold is included, a score strictly below it is
excluded. -/
theorem C1_fuzzy_match_reference (thr : ℚ) (s n : String) (hthr : thr ≤ 1) :
    fuzzy_match thr s n = fuzzyMatchSpec thr s n ∧
    (thr ≤ (fuzzy_match thr s n).2 → (fuzzy_match thr s n).1 = true) ∧
    ((fuzzy_match thr s n).2 < thr → (fuzzy_match thr s n).1 = false) := by
  refine ⟨rfl, ?_, ?_⟩
  · rw [fuzzy_match]
    split
    · intro _
      rfl
    · dsimp only
      split
      · intro _
        rfl
      · intro h
        simpa using h
  · rw [fuzzy_match]
    split
    · intro h
      simp only at h
      exact absurd (lt_of_le_of_lt hthr h) (lt_irrefl thr)
    · dsimp only
      split
      · intro h
        simp only at h
        exact absurd (lt_of_le_of_lt hthr h) (lt_irrefl thr)
      · intro h
        simp only at h ⊢
        exact decide_eq_false (not_le_of_lt h)

/-- Witness for C1 at threshold 2/5, search "abc", name "abd". -/
theorem C1_fuzzy_match_reference_witness :
    (mkRat 2 5 : ℚ) ≤ 1 ∧
    (fuzzy_match (mkRat 2 5) "abc" "abd" = fuzzyMatchSpec (mkRat 2 5) "abc" "abd" ∧
      (mkRat 2 5 ≤ (fuzzy_match (mkRat 2 5) "abc" "abd").2 →
        (fuzzy_match (mkRat 2 5) "abc" "abd").1 = true) ∧
      ((fuzzy_match (mkRat 2 5) "abc" "abd").2 < mkRat 2 5 →
        (fuzzy_match (mkRat 2 5) "abc" "abd").1 = false)) :=
  ⟨by decide, C1_fuzzy_match_reference (mkRat 2 5) "abc" "abd" (by decide)⟩

/-- Candidate subsets per view, in the spec's words (§4.2 step 1). -/
def specViewPred (tab : Tab) (p : Pkg) : Bool :=
  match tab with
  | .installed => p.installed && p.kind == .pacman
  | .flatpak => p.installed && p.kind == .flatpak
  | .aur => p.kind == .aur
  | .available => !p.installed
  | .all => true

theorem filterMap_ite_eq (f : Pkg → Option (Pkg × ℚ)) (q : Pkg → Bool)
    (l : List Pkg) :
    l.filterMap (fun p => if q p then f p else none) =
      (l.filter q).filterMap f := by
  induction l with
  | nil => rfl
  | cons p ps ih =>
    by_cases hq : q p
    · simp [List.filterMap_cons, List.filter_cons, hq, ih]
    · simp [List.filterMap_cons, List.filter_cons, hq, ih]

/-- C2: the candidate subset the filter examines is exactly the per-view
subset the spec prescribes — the tab dispatch agrees with the spec's view
predicate for every record, and the scored-match list is the filter of the
catalog by that predicate; on the two-record firefox catalog, view `all`
yields both records and view `installed` only the installed pacman one. -/
theorem C2_view_candidates (thr : ℚ) (tab : Tab) (s : String)
    (packages : List Pkg) :
    (∀ p, tabPred tab p = specViewPred tab p) ∧
    matchesWithScores thr tab s packages =
      (packages.filter (specViewPred tab)).filterMap (fun p =>
        if (fuzzy_match thr s p.name).1 then
          some (p, (fuzzy_match thr s p.name).2)
        else none) ∧
    filteredPackages (mkRat 2 5) Tab.all "firefox"
        [⟨"firefox", "extra", true, .pacman, none⟩,
         ⟨"firefox-esr", "aur", false, .aur, none⟩]
      = [⟨"firefox", "extra", true, .pacman, none⟩,
         ⟨"firefox-esr", "aur", false, .aur, none⟩] ∧
    filteredPackages (mkRat 2 5) Tab.installed "firefox"
        [⟨"firefox", "extra", true, .pacman, none⟩,
         ⟨"firefox-esr", "aur", false, .aur, none⟩]
      = [⟨"firefox", "extra", true, .pacman, none⟩] := by
  refine ⟨?_, ?_, by decide, by decide⟩
  · intro p
    cases tab <;> rfl
  · rw [matchesWithScores]
    have hpred : (fun p => tabPred tab p) = (fun p => specViewPred tab p) := by
      funext p
      cases tab <;> rfl
    rw [← filterMap_ite_eq]
    simp only [hpred]

theorem isPrefixOf_self (l : List Char) : l.isPrefixOf l = true := by
  induction l with
  | nil => rfl
  | cons c t ih => simp [List.isPrefixOf, ih]

theorem isSubstr_refl (l : List Char) : isSubstr l l = true := by
  rw [isSubstr.eq_def, isPrefixOf_self]
  simp

theorem fuzzy_match_eq_of_substring (thr : ℚ) (s n : String) (hs : s ≠ "")
    (hsub : isSubstr (lowerData s) (lowerData n) = true) :
    fuzzy_match thr s n = (true, 1) := by
  rw [fuzzy_match, if_neg hs]
  dsimp only
  rw [if_pos hsub]

theorem fuzzy_match_score_lt_one (thr : ℚ) (s n : String) (hs : s ≠ "")
    (hsub : isSubstr (lowerData s) (lowerData n) = false) :
    (fuzzy_match thr s n).2 < 1 := by
  rw [fuzzy_match, if_neg hs]
  dsimp only
  rw [if_neg (by simp [hsub])]
  exact ratioQ_lt_one_of_ne _ _ (fun he => by
    rw [he, isSubstr_refl] at hsub
    cases hsub)

theorem matchesWithScores_mem (thr : ℚ) (tab : Tab) (s : String)
    (packages : List Pkg) (x : Pkg × ℚ)
    (hx : x ∈ matchesWithScores thr tab s packages) :
    x.2 = (fuzzy_match thr s x.1.name).2 ∧
    (fuzzy_match thr s x.1.name).1 = true ∧
    x.1 ∈ packages ∧ tabPred tab x.1 = true := by
  rw [matchesWithScores, List.mem_filterMap] at hx
  obtain ⟨p, hp, hf⟩ := hx
  by_cases ht : tabPred tab p
  · rw [if_pos ht] at hf
    by_cases hm : (fuzzy_match thr s p.name).1
    · rw [if_pos hm] at hf
      have hx' : (p, (fuzzy_match thr s p.name).2) = x := Option.some.inj hf
      subst hx'
      exact ⟨rfl, hm, hp, ht⟩
    · rw [if_neg hm] at hf
      cases hf
  · rw [if_neg ht] at hf
    cases hf

theorem matchesWithScores_score_one_of_empty (thr : ℚ) (tab : Tab)
    (packages : List Pkg) :
    ∀ x ∈ matchesWithScores thr tab "" packages, x.2 = 1 := by
  intro x hx
  have h := (matchesWithScores_mem thr tab "" packages x hx).1
  rw [h]
  rfl

theorem sortDesc_eq_of_all_one (l : List (Pkg × ℚ)) (h : ∀ x ∈ l, x.2 = 1) :
    sortDesc l = l := by
  have h1 := sortDesc_stable 1 l
  have h2 : l.filter (fun y => decide (y.2 = 1)) = l :=
    List.filter_eq_self.mpr (fun a ha => by simp [h a ha])
  have h3 : (sortDesc l).filter (fun y => decide (y.2 = 1)) = sortDesc l :=
    List.filter_eq_self.mpr (fun a ha => by
      simp [h a ((sortDesc_perm l).mem_iff.mp ha)])
  rw [← h3, h1, h2]

/-- C3: the ranked output is the scored-match list stably sorted by score,
highest first — it is a permutation of the matches, its scores are
non-increasing, equal-score records keep their catalog order, a substring hit
scores exactly 1 and comes at or above (here: at a strictly smaller index
than, since one is a substring hit and the other is not) every non-substring
fuzzy match, and with an empty search text the output is in insertion
order. -/
theorem C3_ranking (thr : ℚ) (tab : Tab) (s : String) (packages : List Pkg) :
    rankedMatches thr tab s packages =
      sortDesc (matchesWithScores thr tab s packages) ∧
    (rankedMatches thr tab s packages).Perm
      (matchesWithScores thr tab s packages) ∧
    ScoreSorted (rankedMatches thr tab s packages) ∧
    (∀ q : ℚ, (rankedMatches thr tab s packages).filter
        (fun y => decide (y.2 = q)) =
      (matchesWithScores thr tab s packages).filter
        (fun y => decide (y.2 = q))) ∧
    (∀ x ∈ rankedMatches thr tab s packages, s ≠ "" →
      isSubstr (lowerData s) (lowerData x.1.name) = true → x.2 = 1) ∧
    (∀ i j : Fin (rankedMatches thr tab s packages).length, s ≠ "" →
      isSubstr (lowerData s)
        (lowerData (((rankedMatches thr tab s packages).get i).1.name)) = true →
      isSubstr (lowerData s)
        (lowerData (((rankedMatches thr tab s packages).get j).1.name)) = false →
      (i : Nat) < (j : Nat)) ∧
    (s = "" → rankedMatches thr tab s packages =
      matchesWithScores thr tab s packages) := by
  have hperm : (rankedMatches thr tab s packages).Perm
      (matchesWithScores thr tab s packages) :=
    sortDesc_perm (matchesWithScores thr tab s packages)
  have hscore1 : ∀ x ∈ rankedMatches thr tab s packages, s ≠ "" →
      isSubstr (lowerData s) (lowerData x.1.name) = true → x.2 = 1 := by
    intro x hx hs hsub
    have hmem := hperm.mem_iff.mp hx
    have h := (matchesWithScores_mem thr tab s packages x hmem).1
    rw [h, fuzzy_match_eq_of_substring thr s x.1.name hs hsub]
  refine ⟨rfl, hperm, sortDesc_sorted _, fun q => sortDesc_stable q _,
    hscore1, ?_, ?_⟩
  · intro i j hs hi hj
    rcases Nat.lt_trichotomy (i : Nat) (j : Nat) with h | h | h
    · exact h
    · exfalso
      have : ((rankedMatches thr tab s packages).get i) =
          ((rankedMatches thr tab s packages).get j) := by
        congr 1
        exact Fin.ext h
      rw [this, hj] at hi
      cases hi
    · exfalso
      have hsorted : ScoreSorted (rankedMatches thr tab s packages) :=
        sortDesc_sorted (matchesWithScores thr tab s packages)
      have hrel := (List.pairwise_iff_get.mp hsorted) j i (Fin.lt_def.mpr h)
      have h1 : ((rankedMatches thr tab s packages).get i).2 = 1 :=
        hscore1 _ (List.get_mem _ i.1 i.2) hs hi
      have hjmem := hperm.mem_iff.mp (List.get_mem _ j.1 j.2)
      have hj2 := (matchesWithScores_mem thr tab s packages _ hjmem).1
      have hjlt : ((rankedMatches thr tab s packages).get j).2 < 1 := by
        rw [hj2]
        exact fuzzy_match_score_lt_one thr s _ hs hj
      rw [h1] at hrel
      exact absurd (lt_of_le_of_lt hrel hjlt) (lt_irrefl 1)
  · intro hs
    subst hs
    exact sortDesc_eq_of_all_one _
      (matchesWithScores_score_one_of_empty thr tab packages)

set_option maxRecDepth 40000 in
/-- Witness for C3 on a concrete two-record catalog searched for "firefox"
with threshold 0: the substring hit sits at index 0, the non-substring fuzzy
match at index 1. -/
theorem C3_ranking_witness :
    ("firefox" : String) ≠ "" ∧ (0 : Nat) < 1 :=
  ⟨by decide,
    (C3_ranking 0 Tab.all "firefox"
        [⟨"fire-tree", "extra", false, .pacman, none⟩,
         ⟨"firefox", "extra", true, .pacman, none⟩]).2.2.2.2.2.1
      ⟨0, by decide⟩ ⟨1, by decide⟩ (by decide) (by decide) (by decide)⟩

theorem renderedThrough_eq_take (filtered : List Pkg) (P k : Nat) :
    renderedThrough filtered P k = filtered.take ((k + 1) * P) := by
  induction k with
  | zero =>
    rw [renderedThrough, pageSlice, if_neg (lt_irrefl 0), pySlice]
    simp only [List.drop_zero, Nat.sub_zero]
    exact List.take_eq_take.mpr (by omega)
  | succ k ih =>
    rw [renderedThrough, ih, pageSlice, if_pos (Nat.succ_pos k), pySlice]
    rw [← List.take_add filtered ((k + 1) * P)
      (min ((k + 1 + 1) * P) filtered.length - (k + 1) * P)]
    exact List.take_eq_take.mpr (by
      rw [show (k + 1 + 1) * P = (k + 1) * P + P from by ring]
      omega)

/-- C4: the rendered slice is `ranked[0 : (page+1)*P]` on page 0 and
`ranked[page*P : (page+1)*P]` on later pages; `has_more` holds exactly when
`(page+1)*P < N`; and rendering page 0 and then loading more until `has_more`
is false shows each of the N ranked records exactly once, in rank order. -/
theorem C4_pagination (filtered : List Pkg) (page P k : Nat) :
    (page = 0 → pageSlice filtered page P =
      pySlice filtered 0 ((page + 1) * P)) ∧
    (0 < page → pageSlice filtered page P =
      pySlice filtered (page * P) ((page + 1) * P)) ∧
    (hasMore filtered page P = true ↔ (page + 1) * P < filtered.length) ∧
    (hasMore filtered k P = false → renderedThrough filtered P k = filtered) := by
  refine ⟨?_, ?_, ?_, ?_⟩
  · intro h
    subst h
    rw [pageSlice, if_neg (lt_irrefl 0), pySlice, pySlice]
    simp only [List.drop_zero, Nat.sub_zero]
    exact List.take_eq_take.mpr (by omega)
  · intro h
    rw [pageSlice, if_pos h, pySlice, pySlice]
    exact List.take_eq_take.mpr (by simp only [List.length_drop]; omega)
  · rw [hasMore]
    simp only [decide_eq_true_eq]
    omega
  · intro h
    rw [hasMore] at h
    simp only [decide_eq_false_iff_not, not_lt] at h
    rw [renderedThrough_eq_take]
    exact List.take_of_length_le (by omega)

/-- Witness for C4 with 5 records and page size 2: page 1 renders the middle
slice, `has_more` at page 2 is false, and loading through page 2 shows the
whole ranked list. -/
theorem C4_pagination_witness :
    (0 : Nat) < 1 ∧
    hasMore [⟨"a", "r", true, .pacman, none⟩, ⟨"b", "r", true, .pacman, none⟩,
      ⟨"c", "r", true, .pacman, none⟩, ⟨"d", "r", true, .pacman, none⟩,
      ⟨"e", "r", true, .pacman, none⟩] 2 2 = false ∧
    pageSlice [⟨"a", "r", true, .pacman, none⟩, ⟨"b", "r", true, .pacman, none⟩,
      ⟨"c", "r", true, .pacman, none⟩, ⟨"d", "r", true, .pacman, none⟩,
      ⟨"e", "r", true, .pacman, none⟩] 1 2 =
      pySlice [⟨"a", "r", true, .pacman, none⟩, ⟨"b", "r", true, .pacman, none⟩,
        ⟨"c", "r", true, .pacman, none⟩, ⟨"d", "r", true, .pacman, none⟩,
        ⟨"e", "r", true, .pacman, none⟩] 2 4 ∧
    renderedThrough [⟨"a", "r", true, .pacman, none⟩, ⟨"b", "r", true, .pacman, none⟩,
      ⟨"c", "r", true, .pacman, none⟩, ⟨"d", "r", true, .pacman, none⟩,
      ⟨"e", "r", true, .pacman, none⟩] 2 2 =
      [⟨"a", "r", true, .pacman, none⟩, ⟨"b", "r", true, .pacman, none⟩,
       ⟨"c", "r", true, .pacman, none⟩, ⟨"d", "r", true, .pacman, none⟩,
       ⟨"e", "r", true, .pacman, none⟩] := by
  refine ⟨by decide, by decide, ?_, ?_⟩
  · exact (C4_pagination
      [⟨"a", "r", true, .pacman, none⟩, ⟨"b", "r", true, .pacman, none⟩,
       ⟨"c", "r", true, .pacman, none⟩, ⟨"d", "r", true, .pacman, none⟩,
       ⟨"e", "r", true, .pacman, none⟩] 1 2 0).2.1 (by decide)
  · exact (C4_pagination
      [⟨"a", "r", true, .pacman, none⟩, ⟨"b", "r", true, .pacman, none⟩,
       ⟨"c", "r", true, .pacman, none⟩, ⟨"d", "r", true, .pacman, none⟩,
       ⟨"e", "r", true, .pacman, none⟩] 1 2 2).2.2.2 (by decide)

/-- Merge policy in the spec's words (§4.4): first remove every
`source_kind=aur, installed=false` record, then append each hit whose name is
not already present in the remaining catalog under any source. -/
def specMerge (catalog hits : List Pkg) : List Pkg :=
  (catalog.filter (fun p => !(p.kind == .aur && !p.installed))) ++
    hits.filter (fun h =>
      !(((catalog.filter (fun p => !(p.kind == .aur && !p.installed))).map
          Pkg.name).contains h.name))

/-- C5: the merge equals the spec's remove-then-append policy; records that
are not uninstalled-AUR — in particular records of other sources — are never
removed; and when the catalog holds exactly one record of a given name, an
installed AUR one, merging hits of that name leaves exactly that record, its
installed flag intact. -/
theorem C5_merge (catalog hits : List Pkg) (n : String) (p : Pkg) :
    merge_aur_search_results catalog hits = specMerge catalog hits ∧
    (∀ q ∈ catalog, ¬(q.kind = .aur ∧ q.installed = false) →
      q ∈ merge_aur_search_results catalog hits) ∧
    (∀ q ∈ catalog, q.kind ≠ .aur →
      q ∈ merge_aur_search_results catalog hits) ∧
    (catalog.filter (fun q => q.name == n) = [p] → p.kind = .aur →
      p.installed = true →
      (merge_aur_search_results catalog hits).filter (fun q => q.name == n)
        = [p]) := by
  have hkeep : ∀ q ∈ catalog, ¬(q.kind = .aur ∧ q.installed = false) →
      q ∈ merge_aur_search_results catalog hits := by
    intro q hq hnot
    rw [merge_aur_search_results]
    apply List.mem_append_left
    rw [List.mem_filter]
    refine ⟨hq, ?_⟩
    by_cases hk : q.kind = .aur
    · cases hb : q.installed with
      | true => simp [hk, hb]
      | false => exact absurd ⟨hk, hb⟩ hnot
    · have hne : (q.kind == SourceKind.aur) = false := by
        cases hkq : q.kind
        · rfl
        · rfl
        · exact absurd hkq hk
      simp [hne]
  refine ⟨rfl, hkeep, ?_, ?_⟩
  · intro q hq hk
    exact hkeep q hq (fun hc => hk hc.1)
  · intro hfilter hkind hinst
    have hp_mem : p ∈ catalog ∧ (p.name == n) = true := by
      have : p ∈ catalog.filter (fun q => q.name == n) := by
        rw [hfilter]
        exact List.mem_singleton.mpr rfl
      exact List.mem_filter.mp this
    have hkeepp : (!(p.kind == SourceKind.aur && !p.installed)) = true := by
      simp [hkind, hinst]
    rw [merge_aur_search_results, List.filter_append]
    have h1 : (catalog.filter
        (fun p => !(p.kind == SourceKind.aur && !p.installed))).filter
          (fun q => q.name == n) = [p] := by
      rw [List.filter_filter]
      rw [List.filter_congr (l := catalog)
        (q := fun a => (!(a.kind == SourceKind.aur && !a.installed)) &&
          (a.name == n))
        (fun x _ => by rw [Bool.and_comm])]
      rw [← List.filter_filter, hfilter, List.filter_cons, if_pos hkeepp]
      rfl
    have hpkept : p ∈ catalog.filter
        (fun p => !(p.kind == SourceKind.aur && !p.installed)) :=
      List.mem_filter.mpr ⟨hp_mem.1, hkeepp⟩
    have hname_in : ((catalog.filter
        (fun p => !(p.kind == SourceKind.aur && !p.installed))).map
          Pkg.name).contains n = true := by
      rw [List.contains_eq_any_beq, List.any_eq_true]
      refine ⟨p.name, List.mem_map_of_mem Pkg.name hpkept, ?_⟩
      have : p.name = n := by simpa using hp_mem.2
      simp [this]
    have h2 : (hits.filter (fun h =>
        !(((catalog.filter (fun p => !(p.kind == SourceKind.aur &&
            !p.installed))).map Pkg.name).contains h.name))).filter
          (fun q => q.name == n) = [] := by
      rw [List.filter_eq_nil]
      intro q hq
      have hq' := List.mem_filter.mp hq
      simp only [Bool.not_eq_true', decide_eq_false_iff_not] at hq' ⊢
      intro hqn
      have : q.name = n := by simpa using hqn
      rw [this] at hq'
      rw [hname_in] at hq'
      exact absurd hq'.2 (by simp)
    rw [h1, h2]
    rfl

/-- Witness for C5: one installed AUR record "foo" in the catalog, one search
hit of the same name — the merged catalog keeps exactly the installed
record. -/
theorem C5_merge_witness :
    ([⟨"foo", "aur", true, .aur, none⟩] : List Pkg).filter
        (fun q => q.name == "foo") = [⟨"foo", "aur", true, .aur, none⟩] ∧
    (merge_aur_search_results [⟨"foo", "aur", true, .aur, none⟩]
        [⟨"foo", "aur", false, .aur, none⟩]).filter
        (fun q => q.name == "foo")
      = [⟨"foo", "aur", true, .aur, none⟩] :=
  ⟨by decide,
    (C5_merge [⟨"foo", "aur", true, .aur, none⟩]
        [⟨"foo", "aur", false, .aur, none⟩] "foo"
        ⟨"foo", "aur", true, .aur, none⟩).2.2.2
      (by decide) (by decide) (by decide)⟩

/-- C6: reconciliation recomputes each record's installed flag as a
membership test against the freshly derived set for its source kind — name
for pacman and AUR, application id for flatpak (under the spec's invariant
that flatpak records carry a nonempty id) — and a successful pass maps this
recomputation over the whole catalog; the "GIMP"/"org.gimp.GIMP" record is
matched on its id, not its display name. -/
theorem C6_reconcile_membership (pac fl aur : List String) (p : Pkg) :
    (updateRecord pac fl aur p).installed = updatedInstalled pac fl aur p ∧
    (p.kind = .pacman → updatedInstalled pac fl aur p = pac.contains p.name) ∧
    (p.kind = .aur → updatedInstalled pac fl aur p = aur.contains p.name) ∧
    (∀ fid, p.kind = .flatpak → p.app_id = some fid → fid ≠ "" →
      updatedInstalled pac fl aur p = fl.contains fid) ∧
    (∀ (packages : List Pkg) (prevAur : List String) (qOut : String)
        (names : List String) (flr ar : ProcResult),
      firstTokens (strippedLines qOut) = some names →
      update_package_status packages prevAur (some (0, qOut)) flr ar =
        .patched (packages.map (updateRecord names (flatpakInstalledSet flr)
          (aurInstalledSet ar prevAur))) (aurInstalledSet ar prevAur)) ∧
    (updateRecord [] ["org.gimp.GIMP"] []
        ⟨"GIMP", "flathub", false, .flatpak, some "org.gimp.GIMP"⟩).installed
      = true := by
  refine ⟨rfl, ?_, ?_, ?_, ?_, by decide⟩
  · intro h
    rw [updatedInstalled, h]
  · intro h
    rw [updatedInstalled, h]
  · intro fid hk hid hne
    rw [updatedInstalled, hk, hid]
    simp only [if_neg hne]
  · intro packages prevAur qOut names flr ar htok
    rw [update_package_status]
    simp only [if_neg (by omega : ¬(0 : Int) ≠ 0)]
    rw [htok]

/-- Witness for C6 on the GIMP record and a one-line `pacman -Q` output. -/
theorem C6_reconcile_membership_witness :
    ((⟨"GIMP", "flathub", false, .flatpak, some "org.gimp.GIMP"⟩ : Pkg).kind
        = SourceKind.flatpak ∧
      firstTokens (strippedLines "gimp 2.10") = some ["gimp"]) ∧
    updatedInstalled [] ["org.gimp.GIMP"] []
        ⟨"GIMP", "flathub", false, .flatpak, some "org.gimp.GIMP"⟩
      = (["org.gimp.GIMP"] : List String).contains "org.gimp.GIMP" ∧
    update_package_status
        [⟨"GIMP", "flathub", false, .flatpak, some "org.gimp.GIMP"⟩] []
        (some (0, "gimp 2.10")) (some (0, "org.gimp.GIMP")) (some (0, ""))
      = .patched [⟨"GIMP", "flathub", true, .flatpak, some "org.gimp.GIMP"⟩]
          [] := by
  refine ⟨⟨by decide, by decide⟩, ?_, ?_⟩
  · exact (C6_reconcile_membership [] ["org.gimp.GIMP"] []
      ⟨"GIMP", "flathub", false, .flatpak, some "org.gimp.GIMP"⟩).2.2.2.1
      "org.gimp.GIMP" (by decide) (by decide) (by decide)
  · have h := (C6_reconcile_membership [] [] []
      ⟨"GIMP", "flathub", false, .flatpak, some "org.gimp.GIMP"⟩).2.2.2.2.1
      [⟨"GIMP", "flathub", false, .flatpak, some "org.gimp.GIMP"⟩] []
      "gimp 2.10" ["gimp"] (some (0, "org.gimp.GIMP")) (some (0, ""))
      (by decide)
    rw [h]
    decide

/-- C9: a reconciliation pass touches only the installed flag — name, origin
label, source kind and application id survive untouched — and, being a map,
preserves the catalog's length and order; when the installed sets already
agree with every record's current flag, the pass leaves the catalog exactly
as it was (no flapping). -/
theorem C9_reconcile_frame (pac fl aur : List String) (catalog : List Pkg) :
    (∀ p : Pkg, (updateRecord pac fl aur p).name = p.name ∧
      (updateRecord pac fl aur p).repo = p.repo ∧
      (updateRecord pac fl aur p).kind = p.kind ∧
      (updateRecord pac fl aur p).app_id = p.app_id) ∧
    (catalog.map (updateRecord pac fl aur)).length = catalog.length ∧
    (∀ (i : Nat) (hi : i < catalog.length),
      (catalog.map (updateRecord pac fl aur)).get ⟨i, by simpa using hi⟩ =
        updateRecord pac fl aur (catalog.get ⟨i, hi⟩)) ∧
    ((∀ p ∈ catalog, p.installed = updatedInstalled pac fl aur p) →
      catalog.map (updateRecord pac fl aur) = catalog) := by
  refine ⟨fun p => ⟨rfl, rfl, rfl, rfl⟩, List.length_map _ _, ?_, ?_⟩
  · intro i hi
    simp
  · intro h
    have hid : ∀ p ∈ catalog, updateRecord pac fl aur p = p := by
      intro p hp
      have hi := h p hp
      rw [updateRecord, ← hi]
    calc catalog.map (updateRecord pac fl aur) = catalog.map id :=
          List.map_congr_left hid
      _ = catalog := List.map_id catalog

/-- Witness for C9: the installed sets match the current flags of a
two-record catalog, and the pass returns it unchanged. -/
theorem C9_reconcile_frame_witness :
    (∀ p ∈ ([⟨"a", "core", true, .pacman, none⟩,
        ⟨"GIMP", "flathub", false, .flatpak, some "org.gimp.GIMP"⟩] : List Pkg),
      p.installed = updatedInstalled ["a"] [] [] p) ∧
    ([⟨"a", "core", true, .pacman, none⟩,
      ⟨"GIMP", "flathub", false, .flatpak, some "org.gimp.GIMP"⟩] : List Pkg).map
        (updateRecord ["a"] [] [])
      = [⟨"a", "core", true, .pacman, none⟩,
         ⟨"GIMP", "flathub", false, .flatpak, some "org.gimp.GIMP"⟩] :=
  ⟨by decide,
    (C9_reconcile_frame ["a"] [] []
        [⟨"a", "core", true, .pacman, none⟩,
         ⟨"GIMP", "flathub", false, .flatpak, some "org.gimp.GIMP"⟩]).2.2.2
      (by decide)⟩

/-- Counterexample to C8 as stated: the flatpak installed-set query fails
(exit 1) while the pacman query succeeds — the reconciler does not fall back
to a full reload; it patches the catalog with an empty flatpak set, flipping
an installed flatpak record to not-installed. -/
theorem C8_reconcile_counterexample :
    update_package_status
        [⟨"App", "flathub", true, .flatpak, some "org.x.App"⟩] []
        (some (0, "a 1.0")) (some (1, "")) (some (0, ""))
      = .patched [⟨"App", "flathub", false, .flatpak, some "org.x.App"⟩] [] ∧
    update_package_status
        [⟨"App", "flathub", true, .flatpak, some "org.x.App"⟩] []
        (some (0, "a 1.0")) (some (1, "")) (some (0, ""))
      ≠ .fullReload := by
  exact ⟨by decide, by decide⟩

/-- C8 as amended: only a failure of the `pacman -Q` re-query (a raise, a
non-zero exit, or unparseable output) makes the reconciler fall back to a
full reload; a failing flatpak query degrades to an empty flatpak installed
set, a failing AUR query degrades to an empty set (non-zero exit) or the
previous set (raise), and patching proceeds with those sets. -/
theorem C8_reconcile_fallback_amended (catalog : List Pkg)
    (prevAur : List String) (fl ar : ProcResult) (rcQ : Int) (qOut : String)
    (rcF rcA : Int) (fOut aOut : String) :
    update_package_status catalog prevAur none fl ar = .fullReload ∧
    (rcQ ≠ 0 →
      update_package_status catalog prevAur (some (rcQ, qOut)) fl ar
        = .fullReload) ∧
    (firstTokens (strippedLines qOut) = none →
      update_package_status catalog prevAur (some (0, qOut)) fl ar
        = .fullReload) ∧
    flatpakInstalledSet none = [] ∧
    (rcF ≠ 0 → flatpakInstalledSet (some (rcF, fOut)) = []) ∧
    aurInstalledSet none prevAur = prevAur ∧
    (rcA ≠ 0 → aurInstalledSet (some (rcA, aOut)) prevAur = []) ∧
    (∀ names, firstTokens (strippedLines qOut) = some names →
      update_package_status catalog prevAur (some (0, qOut)) fl ar =
        .patched (catalog.map (updateRecord names (flatpakInstalledSet fl)
          (aurInstalledSet ar prevAur))) (aurInstalledSet ar prevAur)) := by
  refine ⟨rfl, ?_, ?_, rfl, ?_, rfl, ?_, ?_⟩
  · intro h
    rw [update_package_status, if_pos h]
  · intro h
    rw [update_package_status, if_neg (by omega : ¬(0 : Int) ≠ 0), h]
  · intro h
    rw [flatpakInstalledSet, if_neg h]
  · intro h
    rw [aurInstalledSet, if_neg h]
  · intro names h
    rw [update_package_status, if_neg (by omega : ¬(0 : Int) ≠ 0), h]

/-- Witness for C8's amended theorem: a raising pacman query falls back, a
non-zero flatpak query gives the empty set, and a successful pacman query
patches. -/
theorem C8_reconcile_fallback_amended_witness :
    (1 : Int) ≠ 0 ∧
    update_package_status [] [] (some (1, "")) none none = .fullReload ∧
    flatpakInstalledSet (some (1, "x")) = [] ∧
    update_package_status [⟨"a", "core", false, .pacman, none⟩] []
        (some (0, "a 1.0")) none none
      = .patched [⟨"a", "core", true, .pacman, none⟩] [] := by
  refine ⟨by decide, ?_, ?_, ?_⟩
  · exact (C8_reconcile_fallback_amended [] [] none none 1 "" 0 0 "" "").2.1
      (by decide)
  · exact (C8_reconcile_fallback_amended [] [] none none 0 "" 1 0 "x" "").2.2.2.2.1
      (by decide)
  · have h := (C8_reconcile_fallback_amended
      [⟨"a", "core", false, .pacman, none⟩] [] none none 0 "a 1.0" 0 0 "" "").2.2.2.2.2.2.2
      ["a"] (by decide)
    rw [h]
    decide

/-- Counterexample to C7 as stated: `pacman -Sl` exits non-zero while the
flatpak and AUR tools behave; the whole catalog build aborts with an error —
no records from any source — instead of degrading to zero pacman records,
even though the very same flatpak outputs would have produced a record. -/
theorem C7_load_abort_counterexample :
    load_packages (some (1, "")) (some (0, "a 1.0")) true
        (some (0, "App\torg.x.App\tstable")) (some (0, "x\torg.x.App"))
        true (some (0, "")) [] = .error () ∧
    loadFlatpakPart true (some (0, "App\torg.x.App\tstable"))
        (some (0, "x\torg.x.App"))
      = .ok [⟨"App", "flathub", true, .flatpak, some "org.x.App"⟩] := by
  exact ⟨by rfl, by rfl⟩

/-- C7 as amended: a non-zero exit of a flatpak command or any failure of the
AUR helper is caught at its adapter block and yields zero records from that
source only, the other sources' records still being produced; but a failure
of `pacman -Sl` (raise or non-zero exit, `check=True`) reaches the outer
handler and aborts the whole catalog build with no records at all (as does a
raising — as opposed to non-zero-exiting — flatpak call, whose inner handler
only catches `CalledProcessError`). -/
theorem C7_load_degrades_amended (slOut qOut o1 o2 aOut : String)
    (rc1 rc2 rcA : Int) (prevAur : List String) (fpR fpL aL : ProcResult) :
    load_packages none (some (0, qOut)) true fpR fpL true aL prevAur
      = .error () ∧
    (∀ rcSl : Int, rcSl ≠ 0 →
      load_packages (some (rcSl, slOut)) (some (0, qOut)) true fpR fpL true
        aL prevAur = .error ()) ∧
    (rc1 ≠ 0 → loadFlatpakPart true (some (rc1, o1)) fpL = .ok []) ∧
    (rc2 ≠ 0 → loadFlatpakPart true (some (0, o1)) (some (rc2, o2)) = .ok []) ∧
    loadAurPart true none prevAur = ([], []) ∧
    (rcA ≠ 0 → loadAurPart true (some (rcA, aOut)) prevAur = ([], [])) ∧
    (∀ names, firstTokens (pySplitChar (Char.ofNat 10) qOut.data) = some names →
      rc1 ≠ 0 →
      load_packages (some (0, slOut)) (some (0, qOut)) true (some (rc1, o1))
          fpL true aL prevAur =
        .ok (parsePacmanSl slOut names ++ (loadAurPart true aL prevAur).1,
          (loadAurPart true aL prevAur).2)) := by
  refine ⟨rfl, ?_, ?_, ?_, rfl, ?_, ?_⟩
  · intro rcSl h
    rw [load_packages, if_pos h]
  · intro h
    rw [loadFlatpakPart.eq_def]
    dsimp only
    rw [if_pos h]
  · intro h
    rw [loadFlatpakPart.eq_def]
    dsimp only
    rw [if_neg (by omega : ¬(0 : Int) ≠ 0), if_pos h]
  · intro h
    rw [loadAurPart.eq_def]
    dsimp only
    rw [if_neg h]
  · intro names htok h1
    rw [load_packages, if_neg (by omega : ¬(0 : Int) ≠ 0), htok]
    rw [show loadFlatpakPart true (some (rc1, o1)) fpL = .ok [] from by
      rw [loadFlatpakPart.eq_def]
      dsimp only
      rw [if_pos h1]]
    simp

/-- Witness for C7's amended theorem: a non-zero flatpak exit degrades to
zero flatpak records, and a full load with that failing flatpak command still
produces the pacman records. -/
theorem C7_load_degrades_amended_witness :
    (1 : Int) ≠ 0 ∧
    loadFlatpakPart true (some (1, "")) none = .ok [] ∧
    load_packages (some (0, "core a 1.0")) (some (0, "a 1.0")) true
        (some (1, "")) none true (some (0, "")) []
      = .ok ([⟨"a", "core", true, .pacman, none⟩], []) := by
  refine ⟨by decide, ?_, ?_⟩
  · exact (C7_load_degrades_amended "" "" "" "" "" 1 0 0 [] none none
      none).2.2.1 (by decide)
  · have h := (C7_load_degrades_amended "core a 1.0" "a 1.0" "" "" "" 1 0 0
      [] none none (some (0, ""))).2.2.2.2.2.2 ["a"] (by rfl) (by decide)
    rw [h]
    rfl

/-- C10 (implicit): clearing the search text empties the whole AUR search
cache (a nonblank search leaves it alone), so a later repeat of a previously
searched term — the cache now being empty, every lookup misses — re-invokes
the external AUR search command, while a term still cached is answered
without invoking it. -/
theorem C10_cache_clearing (cache : AurCache) (raw term : String)
    (ins : List String) (r : ProcResult) (v : List Pkg) :
    (String.mk (pyStrip raw.data) = "" →
      on_search_changed_cache cache raw = []) ∧
    (String.mk (pyStrip raw.data) ≠ "" →
      on_search_changed_cache cache raw = cache) ∧
    (([] : AurCache).lookup term = none) ∧
    (search_aur_packages true [] ins term r).2.2 = true ∧
    (cache.lookup term = some v →
      (search_aur_packages true cache ins term r).2.2 = false) := by
  refine ⟨?_, ?_, rfl, ?_, ?_⟩
  · intro h
    rw [on_search_changed_cache, if_pos h]
  · intro h
    rw [on_search_changed_cache, if_neg h]
  · rw [search_aur_packages.eq_def]
    dsimp only
    cases r with
    | none => rfl
    | some p => rfl
  · intro h
    rw [search_aur_packages.eq_def]
    dsimp only
    rw [h]
    rfl

/-- Witness for C10: blank search clears a one-entry cache; the repeated term
"foo" then misses and invokes the external command. -/
theorem C10_cache_clearing_witness :
    String.mk (pyStrip ("  " : String).data) = "" ∧
    on_search_changed_cache [("foo", [])] "  " = [] ∧
    (search_aur_packages true [] [] "foo" (some (0, ""))).2.2 = true ∧
    (([("foo", [(⟨"foo", "aur", true, .aur, none⟩ : Pkg)])] :
        AurCache).lookup "foo"
      = some [(⟨"foo", "aur", true, .aur, none⟩ : Pkg)] →
      (search_aur_packages true
          [("foo", [(⟨"foo", "aur", true, .aur, none⟩ : Pkg)])] [] "foo"
          (some (0, ""))).2.2 = false) := by
  refine ⟨by decide, ?_, ?_, ?_⟩
  · exact (C10_cache_clearing [("foo", [])] "  " "foo" [] none []).1 (by decide)
  · exact (C10_cache_clearing [] "  " "foo" [] (some (0, "")) []).2.2.2.1
  · exact (C10_cache_clearing
      [("foo", [(⟨"foo", "aur", true, .aur, none⟩ : Pkg)])] "  " "foo" []
      (some (0, "")) [(⟨"foo", "aur", true, .aur, none⟩ : Pkg)]).2.2.2.2
